import Mathlib

/-!
Shallow embedding of the lookup-and-command engine of `src/main.js`
(a browser glossary tool: definition store, match engine, validator,
command dispatcher, history tracker), together with proofs of the
specification's claims about it.

Modelling conventions:
* JS strings are Lean `String`s; `String.prototype.toLowerCase` is modelled
  by `lowerStr` (per-character ASCII lowering, the fragment both agree on).
* JS `Array` values are Lean `List`s.  `Array.prototype.sort` mutates in
  place, which matters for `listTerms`; the mutation is made explicit by
  returning the post-call collection.
* HTML formatting is out of scope (the spec treats rendering as an external
  collaborator); handlers return structured result descriptors instead.
* `levenshteinDistance` builds a full DP matrix in the source; here it is
  embedded as the defining recurrence of that matrix (fuel-indexed so that
  it is structural and kernel-evaluable; the fuel never runs out).
-/

namespace Definer

/-- ASCII lowering of one character, `Char.toLower`, modelling the effect of
JS `toLowerCase` on the ASCII fragment. -/
def lowerStr (s : String) : String := ⟨s.data.map Char.toLower⟩

/-- `isPre p l` : `p` is a leading segment of `l` (helper for substring
containment, JS `String.prototype.includes`). -/
def isPre : List Char → List Char → Bool
  | [], _ => true
  | _ :: _, [] => false
  | a :: as, b :: bs => a = b && isPre as bs

/-- `hasSub needle hay` : `needle` occurs contiguously inside `hay`. -/
def hasSub (needle : List Char) : List Char → Bool
  | [] => isPre needle []
  | c :: cs => isPre needle (c :: cs) || hasSub needle cs

/-- JS `hay.includes(sub)` : substring containment. -/
def strContains (hay sub : String) : Bool := hasSub sub.data hay.data

/-- JS `String.prototype.trim` (both-ends whitespace strip). -/
def trimStr (s : String) : String :=
  ⟨((s.data.dropWhile Char.isWhitespace).reverse.dropWhile Char.isWhitespace).reverse⟩

/-- Helper for `splitSp`: split a character list at every occurrence of the
separator (JS `split(" ")` semantics: empty fields are kept). -/
def splitChAux (sep : Char) (acc : List Char) : List Char → List String
  | [] => [⟨acc.reverse⟩]
  | c :: cs =>
      if c = sep then ⟨acc.reverse⟩ :: splitChAux sep [] cs
      else splitChAux sep (c :: acc) cs

/-- JS `s.split(" ")`. -/
def splitSp (s : String) : List String := splitChAux ' ' [] s.data

/-- Fuel-indexed Levenshtein recurrence.  `levFuel f a b` follows exactly the
recurrence of the DP matrix of `Utils.levenshteinDistance`
(src/main.js:7-18): `D(i,j) = min(D(i,j-1)+1, D(i-1,j)+1, D(i-1,j-1)+ind)`
with borders `D(i,0)=i`, `D(0,j)=j`, read over reversed strings so that the
head of each list is the last character of the corresponding prefix.  The
fuel only forces structural termination; it never reaches the `0` clause
when started at `a.length + b.length` (each call drops the fuel by one and
the combined length by at least one). -/
def levFuel : Nat → List Char → List Char → Nat
  | _, [], ys => ys.length
  | _, _ :: xs, [] => xs.length + 1
  | 0, _ :: _, _ :: _ => 0
  | f + 1, x :: xs, y :: ys =>
      min (levFuel f xs (y :: ys) + 1)
        (min (levFuel f (x :: xs) ys + 1)
          (levFuel f xs ys + (if x = y then 0 else 1)))

/-- Levenshtein distance on character lists (adequately fueled recurrence). -/
def levChar (a b : List Char) : Nat := levFuel (a.length + b.length) a b

/-- `Utils.levenshteinDistance` (src/main.js:7-18): the value
`matrix[b.length][a.length]` of the DP matrix, i.e. the recurrence applied
to the reversed character sequences. -/
def levenshteinDistance (a b : String) : Nat := levChar a.data.reverse b.data.reverse

/-- A glossary entry (src/main.js data model: `{term, aliases, tags, definition}`). -/
structure Defn where
  term : String
  aliases : List String
  tags : List String
  definition : String
deriving DecidableEq, Repr, Inhabited

/-- `RESERVED_COMMANDS` (src/main.js:163). -/
def RESERVED_COMMANDS : List String :=
  ["help", "clear", "list", "ls", "add", "edit", "delete", "rm", "find", "import", "export"]

/-- Exact hit of `findMatches` (src/main.js:49): the lowered term or one of
the lowered aliases equals the (already lowered) search string `s`. -/
def exactHit (s : String) (d : Defn) : Bool :=
  lowerStr d.term == s || (d.aliases.map lowerStr).contains s

/-- Containment hit of `findMatches` (src/main.js:54): the lowered term or a
lowered alias contains the (already lowered) search string `s`. -/
def partHit (s : String) (d : Defn) : Bool :=
  strContains (lowerStr d.term) s || (d.aliases.map lowerStr).any (fun a => strContains a s)

/-- The scan loop of `findMatches` (src/main.js:45-57): walk the collection
in native order accumulating containment hits; the first exact hit breaks
the loop. -/
def findLoop (s : String) (acc : List Defn) : List Defn → Option Defn × List Defn
  | [] => (none, acc)
  | d :: ds =>
      if exactHit s d then (some d, acc)
      else if partHit s d then findLoop s (acc ++ [d]) ds
      else findLoop s acc ds

/-- `Data.findMatches` (src/main.js:40-64): on an exact hit the partial
matches are discarded and the empty list is returned alongside it. -/
def findMatches (q : String) (defs : List Defn) : Option Defn × List Defn :=
  match findLoop (lowerStr q) [] defs with
  | (some e, _) => (some e, [])
  | (none, ps) => (none, ps)

/-- Score of one suggestion candidate in `getBestSuggestion`
(src/main.js:71): edit distance from the query (passed in already lowered
by the caller) to the lowered candidate key. -/
def sugScore (q key : String) : Nat := levenshteinDistance q (lowerStr key)

/-- One step of the `getBestSuggestion` scan (src/main.js:72): strictly
smaller distance replaces the current best, so ties keep the first
candidate; `none` models the `Infinity` initial best. -/
def bestStep (q : String) (acc : Option (String × Nat)) (key : String) : Option (String × Nat) :=
  let dist := sugScore q key
  match acc with
  | none => some (key, dist)
  | some (t, d) => if dist < d then some (key, dist) else some (t, d)

/-- Candidate keys in scan order (src/main.js:69-70): each definition's term
followed by its own aliases, definitions in collection order. -/
def candKeys (defs : List Defn) : List String := defs.flatMap (fun d => d.term :: d.aliases)

/-- `Data.getBestSuggestion` (src/main.js:66-76): best candidate by edit
distance, offered only when its distance is at most `SUGGESTION_THRESHOLD = 3`. -/
def getBestSuggestion (q : String) (defs : List Defn) : Option String :=
  match (candKeys defs).foldl (bestStep q) none with
  | none => none
  | some (t, d) => if d ≤ 3 then some t else none

/-- Structured result descriptor of the `find` handler. -/
inductive FindResult
  | usage
  | found (d : Defn)
  | ambiguous (terms : List String)
  | notFound (suggestion : Option String)
deriving DecidableEq, Repr

/-- `Commands.findDefinition` (src/main.js:381-405).  `formatDefinitionOutput`
is rendering-only, so a resolved definition is reported as `.found`. -/
def findDefinition (q : String) (defs : List Defn) : FindResult :=
  if q = "" then .usage
  else
    match findMatches q defs with
    | (some e, _) => .found e
    | (none, [p]) => .found p
    | (none, []) => .notFound (getBestSuggestion (lowerStr q) defs)
    | (none, ps) => .ambiguous (ps.map (fun d => d.term))

/-- Validator rejection reasons, one per distinct message of
`saveDefinition` (src/main.js:234-262). -/
inductive VErr
  | required
  | reservedTerm
  | termComma
  | reservedAlias (a : String)
  | dupAlias
  | aliasEqTerm
  | termExists
  | aliasExists (a : String)
  | termBadChars
  | aliasBadChars
  | tagBadChars
deriving DecidableEq, Repr

/-- One character of `termRegex = /^[a-z0-9\s-'.]+$/i` (src/main.js:258),
ASCII fragment. -/
def termCharOk (c : Char) : Bool :=
  c.isAlpha || c.isDigit || c.isWhitespace || c = '-' || c = Char.ofNat 39 || c = '.'

/-- One character of `tagRegex = /^[a-z0-9-]+$/i` (src/main.js:259). -/
def tagCharOk (c : Char) : Bool := c.isAlpha || c.isDigit || c = '-'

/-- `termRegex.test` : nonempty and all characters allowed. -/
def termPatOk (s : String) : Bool := !s.data.isEmpty && s.data.all termCharOk

/-- `tagRegex.test` : nonempty and all characters allowed. -/
def tagPatOk (s : String) : Bool := !s.data.isEmpty && s.data.all tagCharOk

/-- The lowered term and aliases of one definition — its contribution to the
collision set of `saveDefinition` (src/main.js:247-251). -/
def keyBlock (d : Defn) : List String := lowerStr d.term :: d.aliases.map lowerStr

/-- `allOtherTermsAndAliases` (src/main.js:246-251): every definition's
lowered term and aliases, skipping the entry at the excluded index
(`currentEditIndex`) when one is set. -/
def collisionKeysAux : List Defn → Option Nat → List String
  | [], _ => []
  | d :: ds, none => keyBlock d ++ collisionKeysAux ds none
  | _ :: ds, some 0 => collisionKeysAux ds none
  | d :: ds, some (n + 1) => keyBlock d ++ collisionKeysAux ds (some n)

/-- The validation prefix of `Commands.saveDefinition` (src/main.js:230-262),
as the spec's `validate(candidate, currentCollection, excludeIndex)`:
sequential checks, first failure returned. -/
def validate (c : Defn) (defs : List Defn) (excl : Option Nat) : Option VErr :=
  let termLower := lowerStr c.term
  if c.term = "" || c.definition = "" then some .required
  else if RESERVED_COMMANDS.contains termLower then some .reservedTerm
  else if c.term.data.contains ',' then some .termComma
  else
    match c.aliases.find? (fun a => RESERVED_COMMANDS.contains (lowerStr a)) with
    | some a => some (.reservedAlias a)
    | none =>
      if ¬ (c.aliases.map lowerStr).Nodup then some .dupAlias
      else if (c.aliases.map lowerStr).contains termLower then some .aliasEqTerm
      else
        let others := collisionKeysAux defs excl
        if others.contains termLower then some .termExists
        else
          match c.aliases.find? (fun a => others.contains (lowerStr a)) with
          | some a => some (.aliasExists a)
          | none =>
            if !termPatOk c.term then some .termBadChars
            else if c.aliases.any (fun a => !termPatOk a) then some .aliasBadChars
            else if c.tags.any (fun t => !tagPatOk t) then some .tagBadChars
            else none

/-- Spec check 1: required fields. -/
def check1 (c : Defn) : Option VErr :=
  if c.term = "" || c.definition = "" then some .required else none

/-- Spec check 2: reserved term. -/
def check2 (c : Defn) : Option VErr :=
  if RESERVED_COMMANDS.contains (lowerStr c.term) then some .reservedTerm else none

/-- Spec check 3: comma in term. -/
def check3 (c : Defn) : Option VErr :=
  if c.term.data.contains ',' then some .termComma else none

/-- Spec check 4: reserved alias, naming the offender. -/
def check4 (c : Defn) : Option VErr :=
  (c.aliases.find? (fun a => RESERVED_COMMANDS.contains (lowerStr a))).map (fun a => .reservedAlias a)

/-- Spec check 5: duplicate alias within the candidate. -/
def check5 (c : Defn) : Option VErr :=
  if ¬ (c.aliases.map lowerStr).Nodup then some .dupAlias else none

/-- Spec check 6: alias equal to the candidate's own term. -/
def check6 (c : Defn) : Option VErr :=
  if (c.aliases.map lowerStr).contains (lowerStr c.term) then some .aliasEqTerm else none

/-- Spec check 7: collision with another definition's term or alias
(term first, then aliases in order), excluding the entry under edit. -/
def check7 (c : Defn) (defs : List Defn) (excl : Option Nat) : Option VErr :=
  let others := collisionKeysAux defs excl
  if others.contains (lowerStr c.term) then some .termExists
  else (c.aliases.find? (fun a => others.contains (lowerStr a))).map (fun a => .aliasExists a)

/-- Spec check 8: identifier-pattern failure (term, then aliases). -/
def check8 (c : Defn) : Option VErr :=
  if !termPatOk c.term then some .termBadChars
  else if c.aliases.any (fun a => !termPatOk a) then some .aliasBadChars
  else none

/-- Spec check 9: tag-pattern failure. -/
def check9 (c : Defn) : Option VErr :=
  if c.tags.any (fun t => !tagPatOk t) then some .tagBadChars else none

/-- The nine spec checks, in the spec's fixed order. -/
def orderedChecks (c : Defn) (defs : List Defn) (excl : Option Nat) : List (Option VErr) :=
  [check1 c, check2 c, check3 c, check4 c, check5 c, check6 c,
   check7 c defs excl, check8 c, check9 c]

/-- Data-model invariant 1: no two definitions share a term/alias
(case-insensitively) — pairwise disjoint key blocks. -/
def keysDisjoint (d e : Defn) : Prop := ∀ k ∈ keyBlock d, k ∉ keyBlock e

/-- Collection-wide uniqueness of terms and aliases. -/
def collectionUnique (defs : List Defn) : Prop := List.Pairwise keysDisjoint defs

instance (d e : Defn) : Decidable (keysDisjoint d e) := by
  unfold keysDisjoint; infer_instance

instance (defs : List Defn) : Decidable (collectionUnique defs) := by
  unfold collectionUnique; infer_instance

/-- Full data-model validity of a collection: every entry passes the
Validator against the rest of the collection. -/
def collectionValidB (defs : List Defn) : Bool :=
  (List.range defs.length).all (fun i => (validate (defs.getD i default) defs (some i)).isNone)

/-- `Commands.findDefinitionAndIndex` (src/main.js:166-173): exact
case-insensitive term/alias lookup returning the entry and its index. -/
def findDefinitionAndIndex (t : String) (defs : List Defn) : Option (Defn × Nat) :=
  match defs.findIdx? (fun d => exactHit (lowerStr t) d) with
  | some i => some (defs.getD i default, i)
  | none => none

/-- Structured result descriptor of the `delete`/`rm` handler. -/
inductive DelResult
  | usage
  | notFound (t : String)
  | confirmPrompt (t : String)
  | deleted (term : String)
deriving DecidableEq, Repr

/-- The term argument of `deleteTerm` (src/main.js:284): the arguments after
the command word, with every `--confirm` removed, joined by spaces. -/
def delArg (args : List String) : String :=
  String.intercalate " " ((args.drop 1).filter (fun a => a ≠ "--confirm"))

/-- `Commands.deleteTerm` (src/main.js:282-304).  Returns the result
descriptor, the collection afterwards, and whether persistence ran. -/
def deleteTerm (args : List String) (defs : List Defn) : DelResult × List Defn × Bool :=
  let termToDelete := delArg args
  if termToDelete = "" then (.usage, defs, false)
  else
    match findDefinitionAndIndex termToDelete defs with
    | none => (.notFound termToDelete, defs, false)
    | some (d, i) =>
        if args.contains "--confirm" then (.deleted d.term, defs.eraseIdx i, true)
        else (.confirmPrompt termToDelete, defs, false)

/-- Structured result descriptor of the `import` handler. -/
inductive ImpResult
  | imported
  | noFile
  | openDialog
deriving DecidableEq, Repr

/-- Outcome of one `import` invocation: result descriptor, Pending Import
Buffer afterwards, collection afterwards, and whether persistence ran. -/
structure ImportOut where
  result : ImpResult
  pending : Option (List Defn)
  defs : List Defn
  persisted : Bool
deriving DecidableEq, Repr

/-- `Commands.importDefinitions` (src/main.js:320-362), synchronous part.
`pending` models `pendingImportData` (`none` = `null`; a staged empty array
is `some []`, which is truthy in JS and still replaces).  The no-flag branch
only opens the asynchronous file dialog. -/
def importDefinitions (args : List String) (pending : Option (List Defn))
    (defs : List Defn) : ImportOut :=
  if args.contains "--confirm" then
    match pending with
    | some data => ⟨.imported, none, data, true⟩
    | none => ⟨.noFile, pending, defs, false⟩
  else ⟨.openDialog, pending, defs, false⟩

/-- The format check of the import file callback (src/main.js:343-348):
the payload must be an array (enforced here by the type) and, when
non-empty, its first element must have truthy `term` and `definition`
fields.  No other element is inspected. -/
def stageCheck (data : List Defn) : Bool :=
  match data with
  | [] => true
  | d :: _ => !(d.term = "") && !(d.definition = "")

/-- The import file callback's effect on the Pending Import Buffer
(src/main.js:340-357): stage the payload on success, clear the buffer on a
format failure. -/
def stageImport (data : List Defn) : Option (List Defn) :=
  if stageCheck data then some data else none

/-- Structured result descriptor of the `list`/`ls` handler. -/
inductive ListResult
  | noTerms (tag : Option String)
  | listing (entries : List Defn)
deriving DecidableEq, Repr

/-- Comparator of `listTerms` (src/main.js:435): lowered terms in
lexicographic order (modelling default-locale `localeCompare` on the ASCII
fragment). -/
def strLeB : List Char → List Char → Bool
  | [], _ => true
  | _ :: _, [] => false
  | a :: as, b :: bs =>
      if a.toNat < b.toNat then true
      else if b.toNat < a.toNat then false
      else strLeB as bs

/-- `a.term.toLowerCase().localeCompare(b.term.toLowerCase()) <= 0`. -/
def termLe (a b : Defn) : Bool := strLeB (lowerStr a.term).data (lowerStr b.term).data

/-- Stable insertion into a sorted list (equal elements keep their original
relative order, as ECMAScript `Array.prototype.sort` guarantees). -/
def insertLe (le : Defn → Defn → Bool) (x : Defn) : List Defn → List Defn
  | [] => [x]
  | y :: ys => if le y x then y :: insertLe le x ys else x :: y :: ys

/-- Stable sort modelling `Array.prototype.sort` with a comparator. -/
def sortLe (le : Defn → Defn → Bool) : List Defn → List Defn
  | [] => []
  | x :: xs => insertLe le x (sortLe le xs)

/-- `Commands.listTerms` (src/main.js:422-444).  Returns the result
descriptor and the Store collection after the call.  With a tag argument,
`filter` allocates a fresh array and the live collection is untouched; with
no tag, `termsToList` aliases the live `definitions` array and the in-place
`sort` (src/main.js:435) reorders the Store's collection itself. -/
def listTerms (tag : Option String) (defs : List Defn) : ListResult × List Defn :=
  let sanitizedTag : Option String :=
    match tag with
    | none => none
    | some t => if t = "" then none else some (lowerStr t)
  match sanitizedTag with
  | some tl =>
      let filtered := defs.filter (fun d => (d.tags.map lowerStr).contains tl)
      if filtered.length = 0 then (.noTerms (some tl), defs)
      else (.listing (sortLe termLe filtered), defs)
  | none =>
      if defs.length = 0 then (.noTerms none, defs)
      else (.listing (sortLe termLe defs), sortLe termLe defs)

/-- Terminal/history state of `App` (src/main.js:457, 516-545):
the command history, the recall cursor `historyIndex` (a JS number,
initially `-1`, hence `Int`), and the input line. -/
structure TermSt where
  history : List String
  historyIndex : Int
  input : String
deriving DecidableEq, Repr

/-- `Data.addToHistory` (src/main.js:86): append unless equal to the most
recent entry. -/
def addToHistory (h : List String) (cmd : String) : List String :=
  if h.getLast? = some cmd then h else h ++ [cmd]

/-- Whether `Commands.process` clears the history: its `switch` matches the
lowered first token of the trimmed line, and only the `clear` arm calls
`Data.clearHistory()` (src/main.js:183-185). -/
def clearsHistory (command : String) : Bool :=
  lowerStr ((splitSp (trimStr command)).headD "") = "clear"

/-- The Enter branch of `App.handleTerminalInput` (src/main.js:518-526):
trim the input; if nonempty, append to history, set the cursor to the
history length, run `Commands.process` (which may clear the history), and
blank the input. -/
def handleEnter (st : TermSt) : TermSt :=
  let command := trimStr st.input
  if command = "" then st
  else
    let h1 := addToHistory st.history command
    let idx : Int := h1.length
    let h2 := if clearsHistory command then [] else h1
    { history := h2, historyIndex := idx, input := "" }

/-- The ArrowUp branch of `App.handleTerminalInput` (src/main.js:527-533).
An out-of-range read of `history[historyIndex]` yields JS `undefined`,
which assignment to the input renders as the string `"undefined"`. -/
def arrowUp (st : TermSt) : TermSt :=
  if 0 < st.historyIndex then
    let i := st.historyIndex - 1
    { st with historyIndex := i, input := st.history.getD i.toNat "undefined" }
  else st

/-- The ArrowDown branch of `App.handleTerminalInput` (src/main.js:534-544). -/
def arrowDown (st : TermSt) : TermSt :=
  if st.historyIndex < (st.history.length : Int) - 1 then
    let i := st.historyIndex + 1
    { st with historyIndex := i, input := st.history.getD i.toNat "undefined" }
  else { st with historyIndex := (st.history.length : Int), input := "" }

/-- Initial terminal state (src/main.js:457: `historyIndex = -1`). -/
def initTermSt : TermSt := ⟨[], -1, ""⟩

/-- Two-entry collection whose native order is not alphabetical. -/
def dBeta : Defn := ⟨"beta", [], ["calc"], "second letter"⟩

/-- Companion entry to `dBeta`. -/
def dAlpha : Defn := ⟨"alpha", [], ["calc"], "first letter"⟩

/-- Entry with an alias, for concrete witnesses. -/
def dVector : Defn := ⟨"vector", ["vec"], ["algebra-basics"], "a list of numbers"⟩

/-- Entry whose term contains `vec` without equalling it. -/
def dVecCalc : Defn := ⟨"vector calculus", [], [], "a branch of analysis"⟩

/-- Second entry whose term contains `vec` without equalling it. -/
def dVecSpace : Defn := ⟨"vector space", [], [], "an algebraic structure"⟩

/-- An import payload that passes the staging format check but violates the
data-model invariants: duplicate term and an empty definition body in the
second element. -/
def badPayload : List Defn := [⟨"dup", [], [], "x"⟩, ⟨"dup", [], [], ""⟩]

/-! ## Lemmas and claim theorems -/

/-- A successful exact lookup returns an in-range index. -/
theorem findDefinitionAndIndex_lt {t : String} {defs : List Defn} {d : Defn} {i : Nat}
    (h : findDefinitionAndIndex t defs = some (d, i)) : i < defs.length := by
  unfold findDefinitionAndIndex at h
  cases hf : defs.findIdx? (fun d => exactHit (lowerStr t) d) with
  | none => rw [hf] at h; exact absurd h (by simp)
  | some j =>
      rw [hf] at h
      simp only [Option.some.injEq, Prod.mk.injEq] at h
      obtain ⟨-, rfl⟩ := h
      obtain ⟨hj, -, -⟩ := List.findIdx?_eq_some_iff_getElem.mp hf
      exact hj

/-- The `findMatches` scan breaks at the first exact hit, whatever has been
accumulated so far. -/
theorem findLoop_break_at {s : String} :
    ∀ (l : List Defn) (acc : List Defn) (i : Nat) (hi : i < l.length),
      exactHit s (l.get ⟨i, hi⟩) = true →
      (∀ j (hj : j < l.length), j < i → exactHit s (l.get ⟨j, hj⟩) = false) →
      ∃ acc', findLoop s acc l = (some (l.get ⟨i, hi⟩), acc') := by
  intro l
  induction l with
  | nil => intro acc i hi; exact absurd hi (by simp)
  | cons d ds ih =>
      intro acc i hi hex hfirst
      cases i with
      | zero => exact ⟨acc, by simp [findLoop, show exactHit s d = true from hex]⟩
      | succ j =>
          have hd : exactHit s d = false := hfirst 0 (by simp) (by omega)
          have hj' : j < ds.length := by simpa using hi
          have hex' : exactHit s (ds.get ⟨j, hj'⟩) = true := hex
          have hfirst' : ∀ j' (hj'' : j' < ds.length), j' < j →
              exactHit s (ds.get ⟨j', hj''⟩) = false := by
            intro j' hj'' hlt
            exact hfirst (j' + 1) (by simpa using hj'') (by omega)
          by_cases hp : partHit s d
          · obtain ⟨acc', h⟩ := ih (acc ++ [d]) j hj' hex' hfirst'
            exact ⟨acc', by simp [findLoop, hd, hp, h]⟩
          · obtain ⟨acc', h⟩ := ih acc j hj' hex' hfirst'
            exact ⟨acc', by simp [findLoop, hd, hp, h]⟩

/-- With no exact hit anywhere, the `findMatches` scan collects exactly the
containment hits, in order, after whatever was accumulated. -/
theorem findLoop_no_exact {s : String} :
    ∀ (l : List Defn) (acc : List Defn), (∀ d ∈ l, exactHit s d = false) →
      findLoop s acc l = (none, acc ++ l.filter (fun d => partHit s d)) := by
  intro l
  induction l with
  | nil => intro acc _; simp [findLoop]
  | cons d ds ih =>
      intro acc h
      have hd : exactHit s d = false := h d (by simp)
      have ht : ∀ e ∈ ds, exactHit s e = false := fun e he => h e (by simp [he])
      by_cases hp : partHit s d
      · simp [findLoop, hd, hp, ih (acc ++ [d]) ht, List.filter_cons]
      · simp [findLoop, hd, hp, ih acc ht, List.filter_cons]

/-- Claim C2: when some definition's term or alias equals the query
case-insensitively, `find` resolves to the first such definition in native
collection order, the returned partial-match set is empty, and containment
hits from other entries (before or after the exact hit) are not reported. -/
theorem spec_find_exact_first (q : String) (defs : List Defn) (i : Nat) (hi : i < defs.length)
    (hq : q ≠ "")
    (hex : exactHit (lowerStr q) (defs.get ⟨i, hi⟩) = true)
    (hfirst : ∀ j (hj : j < defs.length), j < i →
      exactHit (lowerStr q) (defs.get ⟨j, hj⟩) = false) :
    findMatches q defs = (some (defs.get ⟨i, hi⟩), []) ∧
    findDefinition q defs = .found (defs.get ⟨i, hi⟩) := by
  obtain ⟨acc', hloop⟩ := findLoop_break_at defs [] i hi hex hfirst
  have hm : findMatches q defs = (some (defs.get ⟨i, hi⟩), []) := by
    simp [findMatches, hloop]
  exact ⟨hm, by simp [findDefinition, hq, hm]⟩

/-- Witness for C2: query `VEC` exactly matches the alias of `dVector` while
entries before and after contain it as a substring; the exact hit is
returned alone. -/
theorem spec_find_exact_first_witness :
    findMatches "VEC" [dVecCalc, dVector, dVecSpace] = (some dVector, []) ∧
    findDefinition "VEC" [dVecCalc, dVector, dVecSpace] = .found dVector := by
  exact spec_find_exact_first "VEC" [dVecCalc, dVector, dVecSpace] 1 (by decide)
    (by decide) (by decide)
    (by intro j hj hlt
        cases j with
        | zero => exact (by decide : exactHit (lowerStr "VEC") dVecCalc = false)
        | succ n => omega)

/-- Claim C9: with no exact hit, a single containment hit is auto-resolved
to its definition, and two or more containment hits yield an ambiguity
listing of every matching definition's term (not aliases), in collection
order, with as many entries as hits. -/
theorem spec_find_partial_resolution (q : String) (defs : List Defn)
    (hq : q ≠ "") (hnoex : ∀ d ∈ defs, exactHit (lowerStr q) d = false) :
    findMatches q defs = (none, defs.filter (fun d => partHit (lowerStr q) d)) ∧
    (∀ p, defs.filter (fun d => partHit (lowerStr q) d) = [p] →
      findDefinition q defs = .found p) ∧
    (2 ≤ (defs.filter (fun d => partHit (lowerStr q) d)).length →
      findDefinition q defs =
        .ambiguous ((defs.filter (fun d => partHit (lowerStr q) d)).map (fun d => d.term)) ∧
      ((defs.filter (fun d => partHit (lowerStr q) d)).map (fun d => d.term)).length =
        (defs.filter (fun d => partHit (lowerStr q) d)).length) := by
  have hm : findMatches q defs = (none, defs.filter (fun d => partHit (lowerStr q) d)) := by
    have := findLoop_no_exact defs [] hnoex
    simp [findMatches, this]
  refine ⟨hm, fun p hp => ?_, fun h2 => ?_⟩
  · simp [findDefinition, hq, hm, hp]
  · refine ⟨?_, by simp⟩
    cases hps : defs.filter (fun d => partHit (lowerStr q) d) with
    | nil => rw [hps] at h2; simp at h2
    | cons a tl =>
        cases tl with
        | nil => rw [hps] at h2; simp at h2
        | cons b t => rw [hps] at hm; simp [findDefinition, hq, hm, hps]

/-- Witness for C9: one containment hit auto-resolves; two hits are listed
ambiguously by term. -/
theorem spec_find_partial_resolution_witness :
    findDefinition "calc" [dVecCalc, dVector] = .found dVecCalc ∧
    findDefinition "tor" [dVecCalc, dVector] = .ambiguous ["vector calculus", "vector"] := by
  constructor
  · exact (spec_find_partial_resolution "calc" [dVecCalc, dVector] (by decide)
      (by decide)).2.1 dVecCalc (by decide)
  · exact ((spec_find_partial_resolution "tor" [dVecCalc, dVector] (by decide)
      (by decide)).2.2 (by decide)).1

/-- Claim C4: the two-phase `delete`/`rm` flow. A missing term argument is a
usage error; an unresolvable term reports not-found independently of the
`--confirm` flag; a resolvable term without the flag yields a confirmation
prompt and no mutation; with the flag the resolved entry is removed, the
collection shrinks by exactly one, and the result persists. -/
theorem spec_delete_two_phase (args : List String) (defs : List Defn) :
    (delArg args = "" → deleteTerm args defs = (.usage, defs, false)) ∧
    (delArg args ≠ "" → findDefinitionAndIndex (delArg args) defs = none →
      deleteTerm args defs = (.notFound (delArg args), defs, false)) ∧
    (∀ d i, delArg args ≠ "" → findDefinitionAndIndex (delArg args) defs = some (d, i) →
      args.contains "--confirm" = false →
      deleteTerm args defs = (.confirmPrompt (delArg args), defs, false)) ∧
    (∀ d i, delArg args ≠ "" → findDefinitionAndIndex (delArg args) defs = some (d, i) →
      args.contains "--confirm" = true →
      deleteTerm args defs = (.deleted d.term, defs.eraseIdx i, true) ∧
        (defs.eraseIdx i).length + 1 = defs.length) := by
  refine ⟨fun h0 => ?_, fun h0 h1 => ?_, fun d i h0 h1 h2 => ?_, fun d i h0 h1 h2 => ?_⟩
  · simp [deleteTerm, h0]
  · simp [deleteTerm, h0, h1]
  · have h2' : "--confirm" ∉ args := by simpa using h2
    simp [deleteTerm, h0, h1, h2']
  · have h2' : "--confirm" ∈ args := by simpa using h2
    refine ⟨by simp [deleteTerm, h0, h1, h2'], ?_⟩
    have hi := findDefinitionAndIndex_lt h1
    rw [List.length_eraseIdx_of_lt hi]
    omega

/-- Witness for C4: both phases evaluated on a concrete collection. -/
theorem spec_delete_two_phase_witness :
    deleteTerm ["delete", "beta"] [dBeta, dAlpha] =
      (.confirmPrompt "beta", [dBeta, dAlpha], false) ∧
    deleteTerm ["delete", "beta", "--confirm"] [dBeta, dAlpha] =
      (.deleted "beta", [dAlpha], true) := by
  constructor
  · exact (spec_delete_two_phase ["delete", "beta"] [dBeta, dAlpha]).2.2.1 dBeta 0
      (by decide) (by decide) (by decide)
  · exact ((spec_delete_two_phase ["delete", "beta", "--confirm"] [dBeta, dAlpha]).2.2.2 dBeta 0
      (by decide) (by decide) (by decide)).1

/-- Membership in the collision set with no excluded index: some
definition's key block contains the key. -/
theorem mem_collisionKeysAux_none {k : String} :
    ∀ ds : List Defn, k ∈ collisionKeysAux ds none ↔ ∃ e ∈ ds, k ∈ keyBlock e := by
  intro ds
  induction ds with
  | nil => simp [collisionKeysAux]
  | cons d t ih => simp [collisionKeysAux, List.mem_append, ih]

/-- In a collection with pairwise-distinct keys, no key of the entry at the
excluded index appears in the collision set. -/
theorem collision_not_mem :
    ∀ (defs : List Defn) (i : Nat) (hi : i < defs.length), collectionUnique defs →
      ∀ k ∈ keyBlock (defs.get ⟨i, hi⟩), k ∉ collisionKeysAux defs (some i) := by
  intro defs
  induction defs with
  | nil => intro i hi; simp at hi
  | cons d t ih =>
      intro i hi huniq k hk hmem
      obtain ⟨hhead, htail⟩ := List.pairwise_cons.mp huniq
      cases i with
      | zero =>
          have hmem' : k ∈ collisionKeysAux t none := hmem
          obtain ⟨e, he, hke⟩ := (mem_collisionKeysAux_none t).mp hmem'
          exact hhead e he k hk hke
      | succ j =>
          have hj : j < t.length := by simpa using hi
          have hk' : k ∈ keyBlock (t.get ⟨j, hj⟩) := hk
          have hmem' : k ∈ keyBlock d ++ collisionKeysAux t (some j) := hmem
          rcases List.mem_append.mp hmem' with h | h
          · exact hhead (t.get ⟨j, hj⟩) (List.get_mem t j hj) k h hk'
          · exact ih j hj htail k hk' h

set_option maxHeartbeats 2000000 in
/-- Claim C3: the validation of `saveDefinition` equals the first failure of
the nine spec checks in the spec's fixed order (short-circuit), and in an
invariant-respecting collection resubmitting the edited entry's own
unchanged term never produces the term-already-exists failure. -/
theorem spec_validate_order (c : Defn) (defs : List Defn) (excl : Option Nat) :
    validate c defs excl = (orderedChecks c defs excl).findSome? id ∧
    (∀ i (hi : i < defs.length), excl = some i → collectionUnique defs →
      lowerStr c.term = lowerStr ((defs.get ⟨i, hi⟩).term) →
      validate c defs excl ≠ some .termExists) := by
  constructor
  · simp only [validate, orderedChecks, check1, check2, check3, check4, check5, check6,
      check7, check8, check9]
    cases h4 : c.aliases.find? (fun a => RESERVED_COMMANDS.contains (lowerStr a)) with
    | some a => simp only [h4]; split_ifs <;> simp [List.findSome?]
    | none =>
        cases h7 : c.aliases.find?
            (fun a => (collisionKeysAux defs excl).contains (lowerStr a)) with
        | some a => simp only [h4, h7]; split_ifs <;> simp [List.findSome?]
        | none => simp only [h4, h7]; split_ifs <;> simp [List.findSome?]
  · intro i hi hexcl huniq hterm hvalid
    subst hexcl
    have hkey : lowerStr c.term ∈ collisionKeysAux defs (some i) := by
      simp only [validate] at hvalid
      cases h4 : c.aliases.find? (fun a => RESERVED_COMMANDS.contains (lowerStr a)) with
      | some a => simp only [h4] at hvalid; split_ifs at hvalid <;> simp_all
      | none =>
          cases h7 : c.aliases.find?
              (fun a => (collisionKeysAux defs (some i)).contains (lowerStr a)) with
          | some a => simp only [h4, h7] at hvalid; split_ifs at hvalid <;> simp_all
          | none => simp only [h4, h7] at hvalid; split_ifs at hvalid <;> simp_all
    have hnot : lowerStr c.term ∉ collisionKeysAux defs (some i) := by
      apply collision_not_mem defs i hi huniq
      rw [hterm]
      exact List.mem_cons_self _ _
    exact hnot hkey

/-- Witness for C3: editing `dBeta` at index 0 and resubmitting its own term
`beta` passes the collision check. -/
theorem spec_validate_order_witness :
    validate ⟨"beta", [], [], "changed"⟩ [dBeta, dAlpha] (some 0) =
      (orderedChecks ⟨"beta", [], [], "changed"⟩ [dBeta, dAlpha] (some 0)).findSome? id ∧
    validate ⟨"beta", [], [], "changed"⟩ [dBeta, dAlpha] (some 0) ≠ some .termExists := by
  constructor
  · exact (spec_validate_order ⟨"beta", [], [], "changed"⟩ [dBeta, dAlpha] (some 0)).1
  · exact (spec_validate_order ⟨"beta", [], [], "changed"⟩ [dBeta, dAlpha] (some 0)).2
      0 (by decide) rfl (by decide) (by decide)

/-- Claim C6: `import --confirm` with a staged buffer replaces the whole
collection with the staged content, persists, and clears the buffer; with no
staged buffer it reports no-file and changes nothing. -/
theorem spec_import_confirm (args : List String) (pending : Option (List Defn))
    (defs : List Defn) (hc : args.contains "--confirm" = true) :
    (∀ data, pending = some data →
      importDefinitions args pending defs = ⟨.imported, none, data, true⟩) ∧
    (pending = none →
      importDefinitions args pending defs = ⟨.noFile, none, defs, false⟩) := by
  have hc' : "--confirm" ∈ args := by simpa using hc
  constructor
  · rintro data rfl
    simp [importDefinitions, hc']
  · rintro rfl
    simp [importDefinitions, hc']

/-- Witness for C6: both branches on concrete state. -/
theorem spec_import_confirm_witness :
    importDefinitions ["import", "--confirm"] (some [dVector]) [dBeta] =
      ⟨.imported, none, [dVector], true⟩ ∧
    importDefinitions ["import", "--confirm"] none [dBeta] =
      ⟨.noFile, none, [dBeta], false⟩ := by
  constructor
  · exact (spec_import_confirm ["import", "--confirm"] (some [dVector]) [dBeta]
      (by decide)).1 [dVector] rfl
  · exact (spec_import_confirm ["import", "--confirm"] none [dBeta] (by decide)).2 rfl

/-- A first-argmin decomposition bounds the score of every element. -/
theorem argmin_le_of_decomp {α : Type} {sc : α → Nat} {pre suf : List α} {t : α}
    (hpre : ∀ k ∈ pre, sc t < sc k) (hsuf : ∀ k ∈ suf, sc t ≤ sc k) :
    ∀ x ∈ pre ++ t :: suf, sc t ≤ sc x := by
  intro x hx
  rcases List.mem_append.mp hx with h | h
  · exact le_of_lt (hpre x h)
  · rcases List.mem_cons.mp h with rfl | h
    · exact le_refl _
    · exact hsuf x h

/-- A list has at most one first-encountered minimum-score decomposition. -/
theorem argmin_unique {α : Type} {sc : α → Nat} :
    ∀ (pre suf pre' suf' : List α) (t t' : α),
      pre ++ t :: suf = pre' ++ t' :: suf' →
      (∀ k ∈ pre, sc t < sc k) → (∀ k ∈ suf, sc t ≤ sc k) →
      (∀ k ∈ pre', sc t' < sc k) → (∀ k ∈ suf', sc t' ≤ sc k) → t = t' := by
  intro pre
  induction pre with
  | nil =>
      intro suf pre' suf' t t' heq hpre hsuf hpre' hsuf'
      cases pre' with
      | nil =>
          simp only [List.nil_append] at heq
          exact (List.cons.inj heq).1
      | cons p' ps' =>
          simp only [List.nil_append, List.cons_append] at heq
          obtain ⟨h1, h2⟩ := List.cons.inj heq
          have h3 : sc t ≤ sc t' :=
            hsuf t' (by rw [h2]; exact List.mem_append_right _ (List.mem_cons_self _ _))
          have h4 : sc t' < sc t := by
            have h5 := hpre' p' (List.mem_cons_self _ _)
            rwa [← h1] at h5
          omega
  | cons p ps ih =>
      intro suf pre' suf' t t' heq hpre hsuf hpre' hsuf'
      cases pre' with
      | nil =>
          simp only [List.cons_append, List.nil_append] at heq
          obtain ⟨h1, h2⟩ := List.cons.inj heq
          have h3 : sc t' ≤ sc t :=
            hsuf' t (by rw [← h2]; exact List.mem_append_right _ (List.mem_cons_self _ _))
          have h4 : sc t < sc t' := by
            have h5 := hpre p (List.mem_cons_self _ _)
            rwa [h1] at h5
          omega
      | cons p' ps' =>
          simp only [List.cons_append] at heq
          obtain ⟨-, h2⟩ := List.cons.inj heq
          exact ih suf ps' suf' t t' h2
            (fun k hk => hpre k (List.mem_cons_of_mem _ hk)) hsuf
            (fun k hk => hpre' k (List.mem_cons_of_mem _ hk)) hsuf'

/-- The `getBestSuggestion` fold computes the first-encountered minimum-score
candidate: it yields a decomposition with strictly larger scores before the
winner and no smaller score after it. -/
theorem bestFold_argmin (q : String) :
    ∀ (l : List String) (k0 : String),
      ∃ pre t suf,
        k0 :: l = pre ++ t :: suf ∧
        l.foldl (bestStep q) (some (k0, sugScore q k0)) = some (t, sugScore q t) ∧
        (∀ k ∈ pre, sugScore q t < sugScore q k) ∧
        (∀ k ∈ suf, sugScore q t ≤ sugScore q k) := by
  intro l
  induction l with
  | nil => exact fun k0 => ⟨[], k0, [], rfl, rfl, by simp, by simp⟩
  | cons k ks ih =>
      intro k0
      rw [List.foldl_cons]
      by_cases hlt : sugScore q k < sugScore q k0
      · have hstep : bestStep q (some (k0, sugScore q k0)) k = some (k, sugScore q k) := by
          simp [bestStep, hlt]
        rw [hstep]
        obtain ⟨pre', t, suf', hdec, hfold, hpre', hsuf'⟩ := ih k
        refine ⟨k0 :: pre', t, suf', by rw [List.cons_append, ← hdec], hfold, ?_, hsuf'⟩
        intro x hx
        rcases List.mem_cons.mp hx with rfl | hx'
        · have hk : sugScore q t ≤ sugScore q k := by
            apply argmin_le_of_decomp hpre' hsuf'
            rw [← hdec]
            exact List.mem_cons_self _ _
          omega
        · exact hpre' x hx'
      · have hstep : bestStep q (some (k0, sugScore q k0)) k = some (k0, sugScore q k0) := by
          simp [bestStep, hlt]
        rw [hstep]
        obtain ⟨pre', t, suf', hdec, hfold, hpre', hsuf'⟩ := ih k0
        cases pre' with
        | nil =>
            simp only [List.nil_append] at hdec
            obtain ⟨ht, hsufeq⟩ := List.cons.inj hdec
            subst ht
            subst hsufeq
            refine ⟨[], k0, k :: ks, rfl, hfold, by simp, ?_⟩
            intro x hx
            rcases List.mem_cons.mp hx with rfl | hx'
            · omega
            · exact hsuf' x hx'
        | cons p ps =>
            simp only [List.cons_append] at hdec
            obtain ⟨hp, hks⟩ := List.cons.inj hdec
            refine ⟨k0 :: k :: ps, t, suf', by simp [List.cons_append, hks], hfold, ?_, hsuf'⟩
            intro x hx
            have hpk0 : sugScore q t < sugScore q k0 := by
              have h5 := hpre' p (List.mem_cons_self _ _)
              rwa [← hp] at h5
            rcases List.mem_cons.mp hx with rfl | hx'
            · exact hpk0
            · rcases List.mem_cons.mp hx' with rfl | hx''
              · omega
              · exact hpre' x (List.mem_cons_of_mem _ hx'')

/-- Claim C5: when `find` has neither an exact nor a containment hit it
reports not-found carrying `getBestSuggestion` of the lowered query, and the
suggestion is `some t` exactly when `t` is the first-encountered candidate of
minimum edit distance in scan order (terms before their own aliases,
definitions in collection order) with that distance at most 3; on an empty
collection the suggestion is always `none`. -/
theorem spec_suggestion_argmin (q s : String) (defs : List Defn) :
    (q ≠ "" → (∀ d ∈ defs, exactHit (lowerStr q) d = false) →
      (∀ d ∈ defs, partHit (lowerStr q) d = false) →
      findDefinition q defs = .notFound (getBestSuggestion (lowerStr q) defs)) ∧
    (defs = [] → getBestSuggestion s defs = none) ∧
    (∀ t, getBestSuggestion s defs = some t ↔
      ∃ pre suf, candKeys defs = pre ++ t :: suf ∧
        sugScore s t ≤ 3 ∧
        (∀ k ∈ pre, sugScore s t < sugScore s k) ∧
        (∀ k ∈ suf, sugScore s t ≤ sugScore s k)) := by
  refine ⟨fun hq hex hpart => ?_, fun hdefs => ?_, fun t => ?_⟩
  · have hfil : defs.filter (fun d => partHit (lowerStr q) d) = [] :=
      List.filter_eq_nil_iff.mpr (fun d hd => by simp [hpart d hd])
    have hm : findMatches q defs = (none, []) := by
      have h0 := findLoop_no_exact defs [] hex
      simp [findMatches, h0, hfil]
    simp [findDefinition, hq, hm]
  · subst hdefs; rfl
  · cases hck : candKeys defs with
    | nil =>
        have hnone : getBestSuggestion s defs = none := by simp [getBestSuggestion, hck]
        rw [hnone]
        constructor
        · intro h; cases h
        · rintro ⟨pre, suf, hd, -, -, -⟩
          simp at hd
    | cons k0 l =>
        have h1 : (k0 :: l).foldl (bestStep s) none
            = l.foldl (bestStep s) (some (k0, sugScore s k0)) := by
          rw [List.foldl_cons]; rfl
        obtain ⟨pre0, t0, suf0, hdec, hfold, hpre0, hsuf0⟩ := bestFold_argmin s l k0
        have hgbs : getBestSuggestion s defs
            = if sugScore s t0 ≤ 3 then some t0 else none := by
          simp [getBestSuggestion, hck, h1, hfold]
        constructor
        · intro h
          rw [hgbs] at h
          by_cases h3 : sugScore s t0 ≤ 3
          · rw [if_pos h3] at h
            obtain rfl : t0 = t := Option.some.inj h
            exact ⟨pre0, suf0, hdec, h3, hpre0, hsuf0⟩
          · rw [if_neg h3] at h; cases h
        · rintro ⟨pre, suf, hd, h3, hpre, hsuf⟩
          have ht : t = t0 := by
            apply argmin_unique pre suf pre0 suf0 t t0 ?_ hpre hsuf hpre0 hsuf0
            rw [← hd]; exact hdec
          subst ht
          rw [hgbs, if_pos h3]

/-- Witness for C5: `find vec3` on `[dVector]` has no exact or containment
hit; the alias `vec` (scored after the term `vector`) attains the minimum
distance 1 ≤ 3 and is suggested. -/
theorem spec_suggestion_argmin_witness :
    findDefinition "vec3" [dVector] = .notFound (getBestSuggestion (lowerStr "vec3") [dVector]) ∧
    getBestSuggestion "vec3" [dVector] = some "vec" := by
  constructor
  · exact (spec_suggestion_argmin "vec3" "vec3" [dVector]).1 (by decide) (by decide) (by decide)
  · exact ((spec_suggestion_argmin "vec3" "vec3" [dVector]).2.2 "vec").mpr
      ⟨["vector"], [], by decide, by decide, by decide, by decide⟩

/-- Claim C1 (code bug): `list` with a tag argument leaves the collection
untouched (the spec's `list algebra` scenario), but `list` with no tag sorts
the Store's live collection in place, destroying its native order — the
handler calls `Array.prototype.sort` directly on the array returned by
`Data.getDefinitions()` (src/main.js:423,435), a mutation outside any
Validator-gated Store operation. -/
theorem bug_list_inplace_sort :
    (listTerms (some "algebra") [dBeta, dAlpha]).2 = [dBeta, dAlpha] ∧
    (listTerms (some "algebra") [dBeta, dAlpha]).1 = .noTerms (some "algebra") ∧
    (listTerms none [dBeta, dAlpha]).2 = [dAlpha, dBeta] ∧
    [dAlpha, dBeta] ≠ [dBeta, dAlpha] := by decide

/-- Claim C7 (code bug): entering `clear` leaves the recall cursor at the
pre-clear history length while the history becomes empty, so the cursor does
not equal the new length and escapes `[0, length]`; the next ArrowUp then
recalls the out-of-range read `"undefined"`. -/
theorem bug_clear_history_cursor :
    (handleEnter { initTermSt with input := "clear" }).history = [] ∧
    (handleEnter { initTermSt with input := "clear" }).historyIndex = 1 ∧
    ¬ ((handleEnter { initTermSt with input := "clear" }).historyIndex ≤
        ((handleEnter { initTermSt with input := "clear" }).history.length : Int)) ∧
    (arrowUp (handleEnter { initTermSt with input := "clear" })).input = "undefined" := by
  decide

/-- The fuel of `levFuel` is irrelevant once it covers the combined length. -/
theorem levFuel_congr : ∀ (f g : Nat) (a b : List Char),
    a.length + b.length ≤ f → a.length + b.length ≤ g → levFuel f a b = levFuel g a b := by
  intro f
  induction f with
  | zero =>
      intro g a b hf hg
      cases a with
      | nil => simp [levFuel]
      | cons x xs =>
          cases b with
          | nil => simp [levFuel]
          | cons y ys => simp only [List.length_cons] at hf; omega
  | succ f ihf =>
      intro g a b hf hg
      cases a with
      | nil => simp [levFuel]
      | cons x xs =>
          cases b with
          | nil => simp [levFuel]
          | cons y ys =>
              cases g with
              | zero => simp only [List.length_cons] at hg; omega
              | succ g' =>
                  simp only [levFuel]
                  simp only [List.length_cons] at hf hg
                  rw [ihf g' xs (y :: ys) (by simp only [List.length_cons]; omega)
                        (by simp only [List.length_cons]; omega),
                      ihf g' (x :: xs) ys (by simp only [List.length_cons]; omega)
                        (by simp only [List.length_cons]; omega),
                      ihf g' xs ys (by omega) (by omega)]

/-- Border of the DP matrix: against the empty word the distance is the
other word's length. -/
theorem levChar_nil_left (b : List Char) : levChar [] b = b.length := by
  unfold levChar; simp [levFuel]

/-- Border of the DP matrix, other side. -/
theorem levChar_nil_right (a : List Char) : levChar a [] = a.length := by
  cases a <;> (unfold levChar; simp [levFuel])

/-- The inner recurrence of the DP matrix, stated on `levChar`. -/
theorem levChar_cons_cons (x y : Char) (xs ys : List Char) :
    levChar (x :: xs) (y :: ys)
      = min (levChar xs (y :: ys) + 1)
        (min (levChar (x :: xs) ys + 1)
          (levChar xs ys + (if x = y then 0 else 1))) := by
  unfold levChar
  simp only [List.length_cons]
  rw [show xs.length + 1 + (ys.length + 1) = (xs.length + 1 + ys.length) + 1 from by omega]
  simp only [levFuel]
  rw [levFuel_congr (xs.length + 1 + ys.length) (xs.length + (ys.length + 1)) xs (y :: ys)
        (by simp only [List.length_cons]; omega) (by simp only [List.length_cons]; omega),
      levFuel_congr (xs.length + 1 + ys.length) (xs.length + ys.length) xs ys
        (by omega) (by omega)]

/-- Levenshtein distance is at most the sum of the lengths. -/
theorem levChar_le_sum (a b : List Char) : levChar a b ≤ a.length + b.length := by
  cases a with
  | nil => simp [levChar_nil_left]
  | cons x xs =>
      cases b with
      | nil => simp [levChar_nil_right]
      | cons y ys =>
          have h := levChar_le_sum xs (y :: ys)
          rw [levChar_cons_cons]
          simp only [List.length_cons] at *
          omega
termination_by a.length + b.length
decreasing_by simp only [List.length_cons]; omega

/-- Levenshtein distance is at least the length difference. -/
theorem levChar_len_le (a b : List Char) : b.length ≤ a.length + levChar a b := by
  cases a with
  | nil => simp [levChar_nil_left]
  | cons x xs =>
      cases b with
      | nil => simp
      | cons y ys =>
          have h1 := levChar_len_le xs (y :: ys)
          have h2 := levChar_len_le (x :: xs) ys
          have h3 := levChar_len_le xs ys
          rw [levChar_cons_cons]
          simp only [List.length_cons] at *
          omega
termination_by a.length + b.length
decreasing_by all_goals simp only [List.length_cons]; omega

/-- Symmetry of the implemented Levenshtein distance. -/
theorem levChar_symm (a b : List Char) : levChar a b = levChar b a := by
  cases a with
  | nil => rw [levChar_nil_left, levChar_nil_right]
  | cons x xs =>
      cases b with
      | nil => rw [levChar_nil_left, levChar_nil_right]
      | cons y ys =>
          have h1 := levChar_symm xs (y :: ys)
          have h2 := levChar_symm (x :: xs) ys
          have h3 := levChar_symm xs ys
          have hind : (if x = y then (0 : Nat) else 1) = (if y = x then 0 else 1) := by
            by_cases h : x = y
            · rw [if_pos h, if_pos h.symm]
            · rw [if_neg h, if_neg (fun hyx => h hyx.symm)]
          rw [levChar_cons_cons, levChar_cons_cons, h1, h2, h3, hind]
          omega
termination_by a.length + b.length
decreasing_by all_goals simp only [List.length_cons]; omega

/-- The implemented Levenshtein distance vanishes exactly on equal words. -/
theorem levChar_eq_zero_iff (a b : List Char) : levChar a b = 0 ↔ a = b := by
  cases a with
  | nil =>
      rw [levChar_nil_left]
      constructor
      · intro h; exact (List.length_eq_zero.mp h).symm
      · rintro rfl; rfl
  | cons x xs =>
      cases b with
      | nil => rw [levChar_nil_right]; simp
      | cons y ys =>
          have IH := levChar_eq_zero_iff xs ys
          rw [levChar_cons_cons]
          constructor
          · intro h
            have h3 : levChar xs ys + (if x = y then 0 else 1) = 0 := by omega
            by_cases hxy : x = y
            · rw [if_pos hxy] at h3
              rw [hxy, IH.mp (by omega)]
            · rw [if_neg hxy] at h3; omega
          · intro h
            obtain ⟨h1, h2⟩ := List.cons.inj h
            subst h1
            subst h2
            have h0 := IH.mpr rfl
            rw [if_pos rfl]
            omega
termination_by a.length + b.length
decreasing_by simp only [List.length_cons]; omega

/-- Removing the leading character of the first word costs at most one. -/
theorem levChar_dropL (x : Char) (u v : List Char) : levChar (x :: u) v ≤ levChar u v + 1 := by
  cases v with
  | nil => simp [levChar_nil_right]
  | cons y ys => rw [levChar_cons_cons]; omega

/-- Removing the leading character of the second word costs at most one. -/
theorem levChar_dropR (y : Char) (u v : List Char) : levChar u (y :: v) ≤ levChar u v + 1 := by
  cases u with
  | nil => simp [levChar_nil_left]
  | cons x xs => rw [levChar_cons_cons]; omega

/-- Adding a leading character to the second word changes the distance by at
most one. -/
theorem levChar_le_consR (y : Char) (u v : List Char) :
    levChar u v ≤ levChar u (y :: v) + 1 := by
  induction u with
  | nil => simp only [levChar_nil_left, List.length_cons]; omega
  | cons x xs ih =>
      have h1 := levChar_dropL x xs v
      rw [levChar_cons_cons]
      omega

/-- Triangle inequality for the implemented Levenshtein distance. -/
theorem levChar_triangle (a b c : List Char) : levChar a c ≤ levChar a b + levChar b c := by
  cases b with
  | nil =>
      rw [levChar_nil_right, levChar_nil_left]
      have h := levChar_le_sum a c
      omega
  | cons y ys =>
      cases a with
      | nil =>
          rw [levChar_nil_left, levChar_nil_left]
          exact levChar_len_le (y :: ys) c
      | cons x xs =>
          cases c with
          | nil =>
              rw [levChar_nil_right, levChar_nil_right]
              have h := levChar_len_le (y :: ys) (x :: xs)
              rw [levChar_symm (y :: ys) (x :: xs)] at h
              omega
          | cons z zs =>
              have hbc := levChar_cons_cons y z ys zs
              have hab := levChar_cons_cons x y xs ys
              have hd1 : levChar (x :: xs) (z :: zs) ≤ levChar xs (z :: zs) + 1 :=
                levChar_dropL x xs (z :: zs)
              have hd2 : levChar (x :: xs) (z :: zs) ≤ levChar (x :: xs) zs + 1 :=
                levChar_dropR z (x :: xs) zs
              have hd3 : levChar (x :: xs) (z :: zs)
                  ≤ levChar xs zs + (if x = z then 0 else 1) := by
                rw [levChar_cons_cons]; omega
              have hE : levChar (x :: xs) ys ≤ levChar (x :: xs) (y :: ys) + 1 :=
                levChar_le_consR y (x :: xs) ys
              have iA := levChar_triangle (x :: xs) (y :: ys) zs
              have iB := levChar_triangle (x :: xs) ys (z :: zs)
              have iC := levChar_triangle (x :: xs) ys zs
              have iD := levChar_triangle xs (y :: ys) (z :: zs)
              have iE := levChar_triangle xs ys zs
              have hind : (if x = z then (0 : Nat) else 1)
                  ≤ (if x = y then 0 else 1) + (if y = z then 0 else 1) := by
                by_cases h1 : x = y
                · by_cases h2 : y = z
                  · simp [h1, h2, h1.trans h2]
                  · simp only [if_pos h1, if_neg h2]
                    split <;> omega
                · by_cases h2 : y = z
                  · simp only [if_neg h1, if_pos h2]
                    split <;> omega
                  · simp only [if_neg h1, if_neg h2]
                    split <;> omega
              omega
termination_by a.length + b.length + c.length
decreasing_by all_goals simp only [List.length_cons]; omega

/-- Claim C8: the implemented Levenshtein distance is symmetric, vanishes
exactly on equal strings, and satisfies the triangle inequality. -/
theorem spec_levenshtein_metric (a b c : String) :
    levenshteinDistance a b = levenshteinDistance b a ∧
    (levenshteinDistance a b = 0 ↔ a = b) ∧
    levenshteinDistance a c ≤ levenshteinDistance a b + levenshteinDistance b c := by
  refine ⟨levChar_symm _ _, ?_, levChar_triangle _ _ _⟩
  unfold levenshteinDistance
  rw [levChar_eq_zero_iff]
  constructor
  · intro h
    have hd : a.data = b.data := by
      have h2 := congrArg List.reverse h
      simpa using h2
    exact congrArg String.mk hd
  · rintro rfl; rfl

/-- Claim C10: the staging check looks only at the first element, and the
confirm step installs the staged payload verbatim with no Validator run, so
a payload with a duplicate term and an empty later definition body passes
staging and, after `import --confirm`, becomes a live collection violating
the data-model invariants (while the pre-import collection was valid). -/
theorem spec_import_bypasses_validator :
    stageCheck badPayload = true ∧
    stageImport badPayload = some badPayload ∧
    importDefinitions ["import", "--confirm"] (stageImport badPayload) [dBeta] =
      ⟨.imported, none, badPayload, true⟩ ∧
    collectionValidB badPayload = false ∧
    validate (badPayload.getD 0 default) badPayload (some 0) = some .termExists ∧
    validate (badPayload.getD 1 default) badPayload (some 1) = some .required ∧
    collectionValidB [dBeta] = true := by decide

end Definer
